import Mathlib

/-!
Verification of the JeffaSEO content-analysis core (src/main.py).

Python strings are modelled as `List Char` (lists of Unicode scalar values).
The character fragment exercised by this development consists of ASCII
characters plus U+0130 (LATIN CAPITAL LETTER I WITH DOT ABOVE) and
U+0307 (COMBINING DOT ABOVE); the character-class primitives below are
faithful to CPython (str.isspace, regex class w, str.lower, NFKC) on this
fragment, as documented on each definition. Outside the fragment the case
and normalization maps are not modelled (notably the Final_Sigma rule for
U+03A3 and the non-ASCII simple case mappings), so every theorem whose
truth depends on them restricts its inputs to ASCII; the remaining
universally quantified theorems are structural and do not depend on the
character classes.
-/

/-- CPython whitespace (the set matched by str.split, str.strip and the
regex class s on str): U+0009..U+000D, U+001C..U+001F, space, U+0085,
U+00A0, U+1680, U+2000..U+200A, U+2028, U+2029, U+202F, U+205F, U+3000. -/
def pyIsSpace (c : Char) : Bool :=
  decide ((9 ≤ c.toNat ∧ c.toNat ≤ 13) ∨ (28 ≤ c.toNat ∧ c.toNat ≤ 32) ∨
    c.toNat = 133 ∨ c.toNat = 160 ∨ c.toNat = 0x1680 ∨
    (0x2000 ≤ c.toNat ∧ c.toNat ≤ 0x200A) ∨ c.toNat = 0x2028 ∨ c.toNat = 0x2029 ∨
    c.toNat = 0x202F ∨ c.toNat = 0x205F ∨ c.toNat = 0x3000)

/-- CPython regex class w on str: alphanumeric characters or underscore.
On the modelled fragment: ASCII digits, ASCII letters, underscore, and
U+0130 (category Lu, alphabetic). U+0307 COMBINING DOT ABOVE (category Mn)
is not alphanumeric in CPython and hence not a word character. -/
def pyIsWordChar (c : Char) : Bool :=
  decide ((48 ≤ c.toNat ∧ c.toNat ≤ 57) ∨ (65 ≤ c.toNat ∧ c.toNat ≤ 90) ∨
    (97 ≤ c.toNat ∧ c.toNat ≤ 122) ∨ c.toNat = 95 ∨ c.toNat = 0x130)

/-- CPython str.lower, per character, faithful on ASCII and on U+0130:
on ASCII, CPython lowercasing is exactly the A..Z map performed by
Char.toLower, and U+0130 carries the only lowercase mapping in
SpecialCasing.txt that expands to more than one character,
U+0130 → U+0069 U+0307. Deliberately NOT modelled: the Final_Sigma
context rule for U+03A3 (CPython lowercases a capital sigma to U+03C2
at the end of a word and to U+03C3 otherwise) and the simple case
mappings of the remaining non-ASCII letters, which this map leaves
unchanged. The only theorem whose truth depends on the case mapping of
characters outside this fragment — the amended normalization-invariance
claim — therefore restricts both of its inputs to ASCII. -/
def pyLowerChar (c : Char) : List Char :=
  if c.toNat = 0x130 then [Char.ofNat 0x69, Char.ofNat 0x307] else [Char.toLower c]

/-- CPython str.lower on a whole string, as the character-wise lift of
pyLowerChar. CPython lowercasing of a whole string is character-wise
except for the Final_Sigma rule (see pyLowerChar), which is not
modelled; on U+03A3-free strings, and in particular on the ASCII and
ASCII-plus-U+0130 strings all case-sensitive theorems below range over,
the lift is exact. -/
def pyLower (s : List Char) : List Char :=
  s.flatMap pyLowerChar

/-- unicodedata.normalize("NFKC", s). Every character of the modelled
fragment is NFKC-invariant: ASCII characters are unchanged, U+0130
decomposes canonically to U+0049 U+0307 and recomposes to itself, a lone
U+0307 has no decomposition, and the sequence U+0069 U+0307 has no
canonical composition. Hence NFKC is the identity on this fragment. -/
def pyNFKC (s : List Char) : List Char :=
  s

/-- CPython str.strip(): remove leading and trailing whitespace. -/
def pyStrip (s : List Char) : List Char :=
  ((s.dropWhile pyIsSpace).reverse.dropWhile pyIsSpace).reverse

/-- Scan for re.sub(r"s+", " ", s) (a backslash before the s in the
pattern): the flag records whether the previous character was whitespace,
so that each maximal whitespace run is replaced by a single space. -/
def collapseWsAux : Bool → List Char → List Char
  | _, [] => []
  | prevWs, c :: cs =>
    if pyIsSpace c then
      if prevWs then collapseWsAux true cs
      else ' ' :: collapseWsAux true cs
    else c :: collapseWsAux false cs

/-- re.sub of every maximal whitespace run by a single space. -/
def collapseWs (s : List Char) : List Char :=
  collapseWsAux false s

/-- One character of re.sub(r"[^ws]", " ", text) (backslashes before w
and s in the pattern): a character that is neither a word character nor
whitespace is replaced by a space. -/
def maskChar (c : Char) : Char :=
  if pyIsWordChar c || pyIsSpace c then c else ' '

/-- re.sub(r"[^ws]", " ", text) (backslashes before w and s). -/
def maskNonWord (s : List Char) : List Char :=
  s.map maskChar

/-- One step of splitting on whitespace: a whitespace character starts a
new (initially empty) field, any other character is prepended to the
current first field. -/
def splitStep (c : Char) (acc : List (List Char)) : List (List Char) :=
  if pyIsSpace c then [] :: acc
  else
    match acc with
    | [] => [[c]]
    | w :: ws => (c :: w) :: ws

/-- The whitespace-separated fields of s, including empty fields. -/
def splitRuns (s : List Char) : List (List Char) :=
  s.foldr splitStep [[]]

/-- CPython str.split() with no separator: split on whitespace runs and
drop empty fields. -/
def pySplit (s : List Char) : List (List Char) :=
  (splitRuns s).filter (fun w => !w.isEmpty)

/-- Whether a string is empty or starts with whitespace: exactly the
states in which prepending a non-whitespace character starts a new
field of pySplit. -/
def hwHead : List Char → Bool
  | [] => true
  | c :: _ => pyIsSpace c

/-- src/main.py, jeffa_normalize_keyword (lines 138..142):
strip, lower, NFKC, collapse whitespace runs to one space, strip. -/
def jeffa_normalize_keyword (raw : List Char) : List Char :=
  pyStrip (collapseWs (pyNFKC (pyLower (pyStrip raw))))

/-- src/main.py, jeffa_tokenize (lines 165..168): NFKC, replace every
character that is neither a word character nor whitespace by a space,
split on whitespace, lowercase each token (empty tokens cannot occur
since split() already drops them). -/
def jeffa_tokenize (text : List Char) : List (List Char) :=
  (pySplit (maskNonWord (pyNFKC text))).map pyLower

/-- src/main.py, JEFFA_STOP_WORDS_EN (lines 36..41). -/
def JEFFA_STOP_WORDS_EN : List (List Char) :=
  (["a", "an", "the", "and", "or", "but", "in", "on", "at", "to", "for", "of",
    "with", "by", "from", "as", "is", "was", "are", "were", "been", "be",
    "have", "has", "had", "do", "does", "did", "will", "would", "could",
    "should", "may", "might", "must", "shall", "can", "need", "dare",
    "ought"]).map String.toList

/-- src/main.py, jeffa_extract_keywords (lines 171..174). The Python
default for stop_words is None, modelled by Option; the expression
stop_words or JEFFA_STOP_WORDS_EN falls back to the default both for
None and for an empty (falsy) set. -/
def jeffa_extract_keywords (text : List Char) (min_len : Nat)
    (stop_words : Option (List (List Char))) : List (List Char) :=
  let stop := match stop_words with
    | some s => if s.isEmpty then JEFFA_STOP_WORDS_EN else s
    | none => JEFFA_STOP_WORDS_EN
  (jeffa_tokenize text).filter (fun t => decide (min_len ≤ t.length) && !(stop.contains t))

/-- The window tokens[i : i + len] compared at start position i. -/
def jeffaWindow (tokens : List (List Char)) (i len : Nat) : List (List Char) :=
  (tokens.drop i).take len

/-- The window start positions i in range(len(tokens) - len(kw) + 1)
whose window equals kw (src/main.py lines 185..188). The Nat expression
tokens.length + 1 - kw.length equals the number of iterations of the
Python range, which is empty when len(kw) exceeds len(tokens) + 1. -/
def jeffaMatchIdxs (tokens kw : List (List Char)) : List Nat :=
  (List.range (tokens.length + 1 - kw.length)).filter
    (fun i => decide (jeffaWindow tokens i kw.length = kw))

/-- The occurrence count accumulated by the loop in src/main.py lines
185..188. -/
def jeffaCountOcc (tokens kw : List (List Char)) : Nat :=
  (jeffaMatchIdxs tokens kw).length

/-- src/main.py, jeffa_keyword_density_bps (lines 177..189). The trailing
Python conditional (if tokens else 0) is unreachable because the empty
case already returned 0. -/
def jeffa_keyword_density_bps (text keyword : List Char) : Nat :=
  let tokens := jeffa_tokenize text
  if tokens.isEmpty then 0
  else
    let kw_norm := jeffa_normalize_keyword keyword
    let kw_tokens := jeffa_tokenize kw_norm
    if kw_tokens.isEmpty then 0
    else jeffaCountOcc tokens kw_tokens * 10000 / tokens.length

/-- src/main.py, SerpTier (lines 55..60). -/
inductive SerpTier
  | CORE
  | LONG_TAIL
  | BRAND
  | LOCAL
  | IMAGE
deriving DecidableEq

/-- src/main.py, ContentGrade (lines 63..68): enumeration with the
percentage thresholds A = 90, B = 75, C = 60, D = 40, F = 0. -/
inductive ContentGrade
  | A
  | B
  | C
  | D
  | F
deriving DecidableEq

/-- The numeric value attached to each ContentGrade member in
src/main.py lines 63..68. -/
def ContentGrade.value : ContentGrade → Nat
  | .A => 90
  | .B => 75
  | .C => 60
  | .D => 40
  | .F => 0

/-- Modelled from the spec: the grading function mapping total_bps to a
ContentGrade is absent from src/ (the file ends inside
jeffa_analyze_keyword_in_text at line 192, before the scorer). Spec 4.5
and 3: fixed, non-overlapping descending thresholds, ties resolve to the
higher grade (at least, not strictly greater), the thresholds being the
basis-point analogs (enum value times 100) of the ContentGrade
percentages in the source. -/
def jeffa_grade_of_total (total_bps : Nat) : ContentGrade :=
  if 100 * ContentGrade.value .A ≤ total_bps then .A
  else if 100 * ContentGrade.value .B ≤ total_bps then .B
  else if 100 * ContentGrade.value .C ≤ total_bps then .C
  else if 100 * ContentGrade.value .D ≤ total_bps then .D
  else .F

/-- src/main.py, KeywordResult (lines 75..83). Match positions are
optional since no match leaves no first or last window index. -/
structure KeywordResult where
  keyword : List Char
  count : Nat
  density_bps : Nat
  position_first : Option Nat
  position_last : Option Nat
  tier : SerpTier
  normalized : List Char
deriving DecidableEq

/-- Modelled from the spec: the body of jeffa_analyze_keyword_in_text is
absent from src/ (only its signature at line 192 survives). Spec 4.4:
tokenize the text and the normalized keyword, count sliding-window
matches, record the first and last matching window start, carry the
density in basis points and the normalized keyword; never raises and
returns a well-formed zero-valued result on degenerate input. The tier is
an externally configured passthrough; since the signature takes no tier
argument it is modelled as the fixed default SerpTier.CORE. -/
def jeffa_analyze_keyword_in_text (text keyword : List Char) : KeywordResult :=
  let tokens := jeffa_tokenize text
  let kw_norm := jeffa_normalize_keyword keyword
  let kw_tokens := jeffa_tokenize kw_norm
  let hits := if tokens.isEmpty || kw_tokens.isEmpty then []
              else jeffaMatchIdxs tokens kw_tokens
  { keyword := keyword,
    count := hits.length,
    density_bps := jeffa_keyword_density_bps text keyword,
    position_first := hits.head?,
    position_last := hits.getLast?,
    tier := SerpTier.CORE,
    normalized := kw_norm }

/-! Helper lemmas shared between claims. -/

theorem jeffaCountOcc_le (tokens kw : List (List Char)) :
    jeffaCountOcc tokens kw ≤ tokens.length + 1 - kw.length := by
  unfold jeffaCountOcc jeffaMatchIdxs
  calc (List.filter _ (List.range (tokens.length + 1 - kw.length))).length
      ≤ (List.range (tokens.length + 1 - kw.length)).length := List.length_filter_le _ _
    _ = tokens.length + 1 - kw.length := List.length_range _

theorem jeffa_density_le (text keyword : List Char) :
    jeffa_keyword_density_bps text keyword ≤ 10000 := by
  simp only [jeffa_keyword_density_bps]
  split
  · exact Nat.zero_le _
  next htok =>
    split
    · exact Nat.zero_le _
    next hkw =>
      have hL : 0 < (jeffa_tokenize text).length := by
        rw [List.length_pos]
        exact (List.isEmpty_eq_false).mp (Bool.of_not_eq_true htok)
      have hk : 0 < (jeffa_tokenize (jeffa_normalize_keyword keyword)).length := by
        rw [List.length_pos]
        exact (List.isEmpty_eq_false).mp (Bool.of_not_eq_true hkw)
      have hcount : jeffaCountOcc (jeffa_tokenize text)
          (jeffa_tokenize (jeffa_normalize_keyword keyword)) ≤ (jeffa_tokenize text).length := by
        have := jeffaCountOcc_le (jeffa_tokenize text)
          (jeffa_tokenize (jeffa_normalize_keyword keyword))
        omega
      calc jeffaCountOcc (jeffa_tokenize text) (jeffa_tokenize (jeffa_normalize_keyword keyword))
            * 10000 / (jeffa_tokenize text).length
          ≤ (jeffa_tokenize text).length * 10000 / (jeffa_tokenize text).length :=
            Nat.div_le_div_right (Nat.mul_le_mul_right _ hcount)
        _ = 10000 := Nat.mul_div_cancel_left _ hL

theorem maskChar_of_ws {c : Char} (hc : pyIsSpace c = true) : maskChar c = c := by
  simp [maskChar, hc]

theorem pySplit_cons_of_ws (c : Char) (s : List Char) (hc : pyIsSpace c = true) :
    pySplit (c :: s) = pySplit s := by
  simp [pySplit, splitRuns, splitStep, hc]

theorem pySplit_eq_nil_of_ws (s : List Char) (h : ∀ c ∈ s, pyIsSpace c = true) :
    pySplit s = [] := by
  induction s with
  | nil => rfl
  | cons c cs ih =>
    rw [pySplit_cons_of_ws c cs (h c (List.mem_cons_self c cs))]
    exact ih fun d hd => h d (List.mem_cons_of_mem c hd)

/-! Claim theorems: concrete sliding-window and boundary facts. -/

/-- C1: for document text "aa aa aa" and keyword "aa aa" the sliding
window visits every start position with stride 1, matching at token 0 and
token 1, so the occurrence count is 2 and jeffa_keyword_density_bps
returns floor(2 * 10000 / 3) = 6666. -/
theorem claim_C1_overlap_semantics :
    jeffaMatchIdxs (jeffa_tokenize ("aa aa aa".toList))
        (jeffa_tokenize (jeffa_normalize_keyword ("aa aa".toList))) = [0, 1] ∧
    jeffaCountOcc (jeffa_tokenize ("aa aa aa".toList))
        (jeffa_tokenize (jeffa_normalize_keyword ("aa aa".toList))) = 2 ∧
    (jeffa_tokenize ("aa aa aa".toList)).length = 3 ∧
    jeffa_keyword_density_bps ("aa aa aa".toList) ("aa aa".toList) = 6666 :=
  ⟨by decide, by decide, by decide, by decide⟩

/-- C5: for document text "the quick brown fox the quick brown fox" and
keyword "quick brown" the element-wise sliding-window comparison matches
twice, and jeffa_keyword_density_bps returns floor(2 * 10000 / 8) = 2500. -/
theorem claim_C5_multiword_phrase :
    jeffaCountOcc (jeffa_tokenize ("the quick brown fox the quick brown fox".toList))
        (jeffa_tokenize (jeffa_normalize_keyword ("quick brown".toList))) = 2 ∧
    (jeffa_tokenize ("the quick brown fox the quick brown fox".toList)).length = 8 ∧
    jeffa_keyword_density_bps ("the quick brown fox the quick brown fox".toList)
        ("quick brown".toList) = 2500 :=
  ⟨by decide, by decide, by decide⟩

/-- C2: for every text whose tokenization is non-empty and every keyword,
jeffa_keyword_density_bps lies in the interval [0, 10000]. -/
theorem claim_C2_density_bounded (text keyword : List Char)
    (h : jeffa_tokenize text ≠ []) :
    0 ≤ jeffa_keyword_density_bps text keyword ∧
    jeffa_keyword_density_bps text keyword ≤ 10000 :=
  ⟨Nat.zero_le _, jeffa_density_le text keyword⟩

theorem claim_C2_density_bounded_witness :
    jeffa_tokenize ("aa bb".toList) ≠ [] ∧
    (0 ≤ jeffa_keyword_density_bps ("aa bb".toList) ("aa".toList) ∧
      jeffa_keyword_density_bps ("aa bb".toList) ("aa".toList) ≤ 10000) :=
  ⟨by decide, claim_C2_density_bounded ("aa bb".toList) ("aa".toList) (by decide)⟩

/-- C3: when the normalized keyword token sequence matches at no window
start position of the tokenized text, the occurrence count is 0 and
jeffa_keyword_density_bps returns 0. -/
theorem claim_C3_zero_occurrences (text keyword : List Char)
    (h : ∀ i ∈ List.range ((jeffa_tokenize text).length + 1 -
        (jeffa_tokenize (jeffa_normalize_keyword keyword)).length),
      jeffaWindow (jeffa_tokenize text) i
        (jeffa_tokenize (jeffa_normalize_keyword keyword)).length ≠
        jeffa_tokenize (jeffa_normalize_keyword keyword)) :
    jeffaCountOcc (jeffa_tokenize text)
        (jeffa_tokenize (jeffa_normalize_keyword keyword)) = 0 ∧
    jeffa_keyword_density_bps text keyword = 0 := by
  have hcount : jeffaCountOcc (jeffa_tokenize text)
      (jeffa_tokenize (jeffa_normalize_keyword keyword)) = 0 := by
    unfold jeffaCountOcc jeffaMatchIdxs
    rw [List.length_eq_zero, List.filter_eq_nil_iff]
    intro i hi
    simpa using h i hi
  refine ⟨hcount, ?_⟩
  simp only [jeffa_keyword_density_bps]
  split
  · rfl
  · split
    · rfl
    · simp [hcount]

theorem claim_C3_zero_occurrences_witness :
    (∀ i ∈ List.range ((jeffa_tokenize ("aa bb".toList)).length + 1 -
        (jeffa_tokenize (jeffa_normalize_keyword ("cc".toList))).length),
      jeffaWindow (jeffa_tokenize ("aa bb".toList)) i
        (jeffa_tokenize (jeffa_normalize_keyword ("cc".toList))).length ≠
        jeffa_tokenize (jeffa_normalize_keyword ("cc".toList))) ∧
    (jeffaCountOcc (jeffa_tokenize ("aa bb".toList))
        (jeffa_tokenize (jeffa_normalize_keyword ("cc".toList))) = 0 ∧
      jeffa_keyword_density_bps ("aa bb".toList) ("cc".toList) = 0) :=
  ⟨by decide, claim_C3_zero_occurrences ("aa bb".toList) ("cc".toList) (by decide)⟩

/-- C4 fails on the code: for T = K = the one-character string U+0130
(LATIN CAPITAL LETTER I WITH DOT ABOVE), jeffa_keyword_density_bps T K
is 0 while the same call on the normalized inputs returns 10000, because
Python lowercasing expands U+0130 to U+0069 U+0307 and the combining dot
is not a word character, so pre-normalizing the text changes its token
sequence from [the two-character token i-combining-dot] to [i]. -/
theorem claim_C4_counterexample :
    jeffa_keyword_density_bps [Char.ofNat 0x130] [Char.ofNat 0x130] = 0 ∧
    jeffa_keyword_density_bps (jeffa_normalize_keyword [Char.ofNat 0x130])
        (jeffa_normalize_keyword [Char.ofNat 0x130]) = 10000 ∧
    jeffa_keyword_density_bps [Char.ofNat 0x130] [Char.ofNat 0x130] ≠
      jeffa_keyword_density_bps (jeffa_normalize_keyword [Char.ofNat 0x130])
        (jeffa_normalize_keyword [Char.ofNat 0x130]) :=
  ⟨by decide, by decide, by decide⟩

/-- C8: the grade of a total score is a step function with fixed
non-overlapping descending thresholds, ties resolving to the higher
grade: 9000 yields A, 8999 yields B, and the boundaries are A at least
9000, B at least 7500, C at least 6000, D at least 4000, F otherwise. -/
theorem claim_C8_grade_boundaries :
    jeffa_grade_of_total 9000 = ContentGrade.A ∧
    jeffa_grade_of_total 8999 = ContentGrade.B ∧
    (∀ n : Nat,
      (jeffa_grade_of_total n = ContentGrade.A ↔ 9000 ≤ n) ∧
      (jeffa_grade_of_total n = ContentGrade.B ↔ 7500 ≤ n ∧ n < 9000) ∧
      (jeffa_grade_of_total n = ContentGrade.C ↔ 6000 ≤ n ∧ n < 7500) ∧
      (jeffa_grade_of_total n = ContentGrade.D ↔ 4000 ≤ n ∧ n < 6000) ∧
      (jeffa_grade_of_total n = ContentGrade.F ↔ n < 4000)) := by
  refine ⟨by decide, by decide, fun n => ?_⟩
  unfold jeffa_grade_of_total
  simp only [ContentGrade.value]
  split_ifs <;> refine ⟨?_, ?_, ?_, ?_, ?_⟩ <;> simp_all <;> omega

/-- C10: supplying the empty stop-word set is identical to supplying the
default set JEFFA_STOP_WORDS_EN (and to omitting the argument), because
the falsy empty set triggers the default; in particular stop-word
filtering cannot be disabled this way, as the concrete call on "the cat"
shows. -/
theorem claim_C10_empty_stopwords_fallback :
    (∀ (text : List Char) (min_len : Nat),
      jeffa_extract_keywords text min_len (some []) =
        jeffa_extract_keywords text min_len (some JEFFA_STOP_WORDS_EN) ∧
      jeffa_extract_keywords text min_len (some []) =
        jeffa_extract_keywords text min_len none) ∧
    jeffa_extract_keywords ("the cat".toList) 2 (some []) = ["cat".toList] :=
  ⟨fun _ _ => ⟨rfl, rfl⟩, by decide⟩

/-- C9 fails on the code at the explicitly supplied empty stop-word set:
for text "the cat" and min_len 2, filtering the tokens by membership in
the empty set would keep both tokens, but jeffa_extract_keywords
substitutes the default stop-word set and drops "the". -/
theorem claim_C9_counterexample :
    jeffa_extract_keywords ("the cat".toList) 2 (some []) ≠
      (jeffa_tokenize ("the cat".toList)).filter
        (fun t => decide (2 ≤ t.length ∧ t ∉ ([] : List (List Char)))) := by
  decide

/-- C9 amended: for every text, min_len and nonempty stop-word set,
jeffa_extract_keywords returns exactly the tokens of jeffa_tokenize text
whose length is at least min_len and which are not members of the set,
in original token order, without deduplication; with no set supplied the
default set JEFFA_STOP_WORDS_EN plays that role (and by C10 an empty set
falls back to the default). -/
theorem claim_C9_extract_is_filter (text : List Char) (min_len : Nat)
    (stop : List (List Char)) (h : stop ≠ []) :
    jeffa_extract_keywords text min_len (some stop) =
      (jeffa_tokenize text).filter (fun t => decide (min_len ≤ t.length ∧ t ∉ stop)) ∧
    jeffa_extract_keywords text min_len none =
      (jeffa_tokenize text).filter
        (fun t => decide (min_len ≤ t.length ∧ t ∉ JEFFA_STOP_WORDS_EN)) := by
  constructor
  · have hne : stop.isEmpty = false := List.isEmpty_eq_false.mpr h
    simp only [jeffa_extract_keywords, hne, Bool.false_eq_true, if_false]
    apply List.filter_congr
    intro t _
    by_cases h1 : min_len ≤ t.length <;> by_cases h2 : t ∈ stop <;>
      simp [h1, h2]
  · simp only [jeffa_extract_keywords]
    apply List.filter_congr
    intro t _
    by_cases h1 : min_len ≤ t.length <;> by_cases h2 : t ∈ JEFFA_STOP_WORDS_EN <;>
      simp [h1, h2]

/-- C6: normalization and tokenization are total and yield the empty
result on empty or whitespace-only input, and every degenerate density
input (empty text, empty keyword, or anything tokenizing to zero tokens)
yields the well-formed zero value. -/
theorem claim_C6_degenerate_inputs :
    jeffa_normalize_keyword [] = [] ∧
    jeffa_tokenize [] = [] ∧
    (∀ s : List Char, (∀ c ∈ s, pyIsSpace c = true) → jeffa_tokenize s = []) ∧
    (∀ k, jeffa_keyword_density_bps [] k = 0) ∧
    (∀ t, jeffa_keyword_density_bps t [] = 0) ∧
    (∀ t k, jeffa_tokenize t = [] → jeffa_keyword_density_bps t k = 0) ∧
    (∀ t k, jeffa_tokenize (jeffa_normalize_keyword k) = [] →
      jeffa_keyword_density_bps t k = 0) := by
  refine ⟨rfl, rfl, ?_, ?_, ?_, ?_, ?_⟩
  · intro s hs
    have hsplit : pySplit (maskNonWord (pyNFKC s)) = [] := by
      apply pySplit_eq_nil_of_ws
      intro c hc
      rcases List.mem_map.mp hc with ⟨d, hd, rfl⟩
      rw [maskChar_of_ws (hs d hd)]
      exact hs d hd
    simp [jeffa_tokenize, hsplit]
  · intro k
    rfl
  · intro t
    simp only [jeffa_keyword_density_bps]
    split
    · rfl
    · rfl
  · intro t k h
    simp [jeffa_keyword_density_bps, h]
  · intro t k h
    simp only [jeffa_keyword_density_bps]
    split
    · rfl
    · simp [h]

theorem claim_C6_degenerate_inputs_witness :
    (∀ c ∈ (" ".toList), pyIsSpace c = true) ∧ jeffa_tokenize (" ".toList) = [] ∧
    jeffa_tokenize ("..".toList) = [] ∧ jeffa_keyword_density_bps ("..".toList) ("aa".toList) = 0 ∧
    jeffa_tokenize (jeffa_normalize_keyword (", ,".toList)) = [] ∧
    jeffa_keyword_density_bps ("aa".toList) (", ,".toList) = 0 :=
  ⟨by decide, claim_C6_degenerate_inputs.2.2.1 (" ".toList) (by decide),
    by decide, claim_C6_degenerate_inputs.2.2.2.2.2.1 ("..".toList) ("aa".toList) (by decide),
    by decide, claim_C6_degenerate_inputs.2.2.2.2.2.2 ("aa".toList) (", ,".toList) (by decide)⟩

/-- C7: jeffa_analyze_keyword_in_text is a total function that, on every
pair of strings, returns a well-formed KeywordResult carrying the
original keyword, the normalized keyword, the occurrence count, the
density in basis points (bounded by 10000 and equal to
jeffa_keyword_density_bps), first and last match positions that really
are matching window starts, and the tier tag. -/
theorem claim_C7_analyze_total_wellformed (text keyword : List Char) :
    (jeffa_analyze_keyword_in_text text keyword).keyword = keyword ∧
    (jeffa_analyze_keyword_in_text text keyword).normalized =
      jeffa_normalize_keyword keyword ∧
    (jeffa_analyze_keyword_in_text text keyword).tier = SerpTier.CORE ∧
    (jeffa_analyze_keyword_in_text text keyword).density_bps =
      jeffa_keyword_density_bps text keyword ∧
    (jeffa_analyze_keyword_in_text text keyword).density_bps ≤ 10000 ∧
    ((jeffa_analyze_keyword_in_text text keyword).count = 0 ↔
      (jeffa_analyze_keyword_in_text text keyword).position_first = none) ∧
    (∀ i, (jeffa_analyze_keyword_in_text text keyword).position_first = some i →
      jeffaWindow (jeffa_tokenize text) i
          (jeffa_tokenize (jeffa_normalize_keyword keyword)).length =
        jeffa_tokenize (jeffa_normalize_keyword keyword)) ∧
    (∀ i, (jeffa_analyze_keyword_in_text text keyword).position_last = some i →
      jeffaWindow (jeffa_tokenize text) i
          (jeffa_tokenize (jeffa_normalize_keyword keyword)).length =
        jeffa_tokenize (jeffa_normalize_keyword keyword)) := by
  have hmem : ∀ i, i ∈ (if (jeffa_tokenize text).isEmpty ||
        (jeffa_tokenize (jeffa_normalize_keyword keyword)).isEmpty then []
      else jeffaMatchIdxs (jeffa_tokenize text)
        (jeffa_tokenize (jeffa_normalize_keyword keyword))) →
      jeffaWindow (jeffa_tokenize text) i
          (jeffa_tokenize (jeffa_normalize_keyword keyword)).length =
        jeffa_tokenize (jeffa_normalize_keyword keyword) := by
    intro i hi
    split at hi
    · simp at hi
    · unfold jeffaMatchIdxs at hi
      simpa using List.of_mem_filter hi
  simp only [jeffa_analyze_keyword_in_text]
  refine ⟨by trivial, by trivial, by trivial, by trivial,
    jeffa_density_le text keyword, ?_, ?_, ?_⟩
  · rw [List.length_eq_zero, ← List.head?_eq_none_iff]
  · intro i hi
    exact hmem i (List.mem_of_mem_head? hi)
  · intro i hi
    exact hmem i (List.mem_of_getLast?_eq_some hi)

theorem claim_C9_extract_is_filter_witness :
    (["aa".toList] : List (List Char)) ≠ [] ∧
    (jeffa_extract_keywords ("aa bb".toList) 2 (some ["aa".toList]) =
        (jeffa_tokenize ("aa bb".toList)).filter
          (fun t => decide (2 ≤ t.length ∧ t ∉ (["aa".toList] : List (List Char)))) ∧
      jeffa_extract_keywords ("aa bb".toList) 2 none =
        (jeffa_tokenize ("aa bb".toList)).filter
          (fun t => decide (2 ≤ t.length ∧ t ∉ JEFFA_STOP_WORDS_EN))) :=
  ⟨by decide, claim_C9_extract_is_filter ("aa bb".toList) 2 ["aa".toList] (by decide)⟩

theorem char_toNat_inj {c d : Char} (h : c.toNat = d.toNat) : c = d :=
  Char.eq_of_val_eq (UInt32.toNat.inj h)

theorem toNat_ofNat_lt {n : Nat} (h : n < 55296) : (Char.ofNat n).toNat = n := by
  have hv : n.isValidChar := Or.inl h
  unfold Char.ofNat
  rw [dif_pos hv]
  simp [Char.ofNatAux, Char.toNat, UInt32.toNat, BitVec.toNat_ofNatLt]

theorem toNat_toLower (c : Char) :
    (Char.toLower c).toNat =
      if 65 ≤ c.toNat ∧ c.toNat ≤ 90 then c.toNat + 32 else c.toNat := by
  unfold Char.toLower
  split
  next hc =>
    rw [if_pos]
    · exact toNat_ofNat_lt (by omega)
    · omega
  next hc =>
    rw [if_neg]
    omega

theorem pyIsSpace_toLower (c : Char) : pyIsSpace (Char.toLower c) = pyIsSpace c := by
  have h := toNat_toLower c
  simp only [pyIsSpace]
  rw [decide_eq_decide]
  by_cases hc : 65 ≤ c.toNat ∧ c.toNat ≤ 90
  · rw [if_pos hc] at h
    rw [h]
    omega
  · rw [if_neg hc] at h
    rw [h]

theorem pyIsWordChar_toLower (c : Char) : pyIsWordChar (Char.toLower c) = pyIsWordChar c := by
  have h := toNat_toLower c
  simp only [pyIsWordChar]
  rw [decide_eq_decide]
  by_cases hc : 65 ≤ c.toNat ∧ c.toNat ≤ 90
  · rw [if_pos hc] at h
    rw [h]
    omega
  · rw [if_neg hc] at h
    rw [h]

theorem toLower_toLower (c : Char) : Char.toLower (Char.toLower c) = Char.toLower c := by
  apply char_toNat_inj
  have h1 := toNat_toLower c
  have h2 := toNat_toLower (Char.toLower c)
  by_cases hc : 65 ≤ c.toNat ∧ c.toNat ≤ 90
  · rw [if_pos hc] at h1
    rw [h1, if_neg (by omega)] at h2
    omega
  · rw [if_neg hc] at h1
    rw [h1, if_neg hc] at h2
    omega

theorem toNat_toLower_ne_iDot {c : Char} (h : c.toNat ≠ 0x130) :
    (Char.toLower c).toNat ≠ 0x130 := by
  have h1 := toNat_toLower c
  by_cases hc : 65 ≤ c.toNat ∧ c.toNat ≤ 90
  · rw [if_pos hc] at h1
    omega
  · rw [if_neg hc] at h1
    omega

theorem maskChar_toLower (c : Char) :
    maskChar (Char.toLower c) = Char.toLower (maskChar c) := by
  unfold maskChar
  rw [pyIsSpace_toLower, pyIsWordChar_toLower]
  by_cases hwc : (pyIsWordChar c || pyIsSpace c) = true
  · rw [if_pos hwc, if_pos hwc]
  · rw [if_neg hwc, if_neg hwc]
    apply char_toNat_inj
    rw [toNat_toLower]
    decide

theorem pyLower_eq_map_toLower {s : List Char} (h : ∀ c ∈ s, c.toNat ≠ 0x130) :
    pyLower s = s.map Char.toLower := by
  induction s with
  | nil => rfl
  | cons c cs ih =>
    have hc : c.toNat ≠ 0x130 := h c (List.mem_cons_self c cs)
    simp only [pyLower, List.flatMap_cons, List.map_cons] at *
    rw [pyLowerChar, if_neg hc]
    simp only [List.singleton_append, List.cons.injEq, true_and]
    exact ih fun d hd => h d (List.mem_cons_of_mem c hd)

theorem pyLower_pyLowerChar (c : Char) : pyLower (pyLowerChar c) = pyLowerChar c := by
  by_cases hc : c.toNat = 0x130
  · simp only [pyLowerChar, if_pos hc]
    decide
  · simp only [pyLowerChar, if_neg hc]
    have hne : (Char.toLower c).toNat ≠ 0x130 := toNat_toLower_ne_iDot hc
    simp only [pyLower, List.flatMap_cons, List.flatMap_nil, List.append_nil]
    rw [pyLowerChar, if_neg hne, toLower_toLower]

theorem pyLower_idem (s : List Char) : pyLower (pyLower s) = pyLower s := by
  simp only [pyLower]
  rw [List.flatMap_assoc]
  congr 1
  funext c
  exact pyLower_pyLowerChar c

theorem splitRuns_ne_nil (s : List Char) : splitRuns s ≠ [] := by
  induction s with
  | nil => simp [splitRuns]
  | cons c cs ih =>
    simp only [splitRuns, List.foldr_cons] at *
    unfold splitStep
    split
    · simp
    · match h : List.foldr splitStep [[]] cs with
      | [] => exact absurd h ih
      | w :: ws => simp

theorem pySplit_cons_of_not_ws_hw_true (c : Char) (s : List Char)
    (hc : pyIsSpace c = false) (hs : hwHead s = true) :
    pySplit (c :: s) = [c] :: pySplit s := by
  match s with
  | [] => simp [pySplit, splitRuns, splitStep, hc]
  | d :: s' =>
    have hd : pyIsSpace d = true := hs
    simp only [pySplit, splitRuns, List.foldr_cons]
    rw [show splitStep d (List.foldr splitStep [[]] s') = [] :: List.foldr splitStep [[]] s' by
      simp [splitStep, hd]]
    simp [splitStep, hc]

theorem pySplit_cons_of_not_ws_hw_false (c : Char) (s : List Char)
    (hc : pyIsSpace c = false) (hs : hwHead s = false) :
    pySplit (c :: s) = (c :: (pySplit s).headD []) :: (pySplit s).tail := by
  match s with
  | [] => simp [hwHead] at hs
  | d :: s' =>
    have hd : pyIsSpace d = false := hs
    simp only [pySplit, splitRuns, List.foldr_cons]
    match h : List.foldr splitStep [[]] s' with
    | [] => exact absurd h (splitRuns_ne_nil s')
    | w :: ws =>
      rw [show splitStep d (w :: ws) = (d :: w) :: ws by simp [splitStep, hd]]
      rw [show splitStep c ((d :: w) :: ws) = (c :: d :: w) :: ws by simp [splitStep, hc]]
      simp

theorem pySplit_cons_congr (c : Char) (A B : List Char)
    (hsplit : pySplit A = pySplit B) (hhw : hwHead A = hwHead B) :
    pySplit (c :: A) = pySplit (c :: B) := by
  by_cases hc : pyIsSpace c = true
  · rw [pySplit_cons_of_ws c A hc, pySplit_cons_of_ws c B hc, hsplit]
  · have hc' : pyIsSpace c = false := Bool.of_not_eq_true hc
    by_cases hA : hwHead A = true
    · rw [pySplit_cons_of_not_ws_hw_true c A hc' hA,
        pySplit_cons_of_not_ws_hw_true c B hc' (hhw ▸ hA), hsplit]
    · have hA' : hwHead A = false := Bool.of_not_eq_true hA
      rw [pySplit_cons_of_not_ws_hw_false c A hc' hA',
        pySplit_cons_of_not_ws_hw_false c B hc' (hhw ▸ hA'), hsplit]

theorem collapseWsAux_cons_ws_true (c : Char) (cs : List Char) (hc : pyIsSpace c = true) :
    collapseWsAux true (c :: cs) = collapseWsAux true cs := by
  simp [collapseWsAux, hc]

theorem collapseWsAux_cons_ws_false (c : Char) (cs : List Char) (hc : pyIsSpace c = true) :
    collapseWsAux false (c :: cs) = ' ' :: collapseWsAux true cs := by
  simp [collapseWsAux, hc]

theorem collapseWsAux_cons_not_ws (b : Bool) (c : Char) (cs : List Char)
    (hc : pyIsSpace c = false) :
    collapseWsAux b (c :: cs) = c :: collapseWsAux false cs := by
  simp [collapseWsAux, hc]

theorem hwHead_mask_collapseAux_false (v : List Char) :
    hwHead (maskNonWord (collapseWsAux false v)) = hwHead (maskNonWord v) := by
  match v with
  | [] => rfl
  | c :: cs =>
    by_cases hc : pyIsSpace c = true
    · rw [collapseWsAux_cons_ws_false c cs hc]
      simp only [maskNonWord, List.map_cons, hwHead]
      rw [maskChar_of_ws hc, maskChar_of_ws (show pyIsSpace ' ' = true by decide)]
      rw [hc]
      decide
    · have hc2 : pyIsSpace c = false := Bool.of_not_eq_true hc
      rw [collapseWsAux_cons_not_ws false c cs hc2]
      rfl

theorem pySplit_mask_collapseAux (v : List Char) :
    ∀ b, pySplit (maskNonWord (collapseWsAux b v)) = pySplit (maskNonWord v) := by
  induction v with
  | nil => intro b; cases b <;> rfl
  | cons c cs ih =>
    intro b
    by_cases hc : pyIsSpace c = true
    · have hmc : maskChar c = c := maskChar_of_ws hc
      have hrhs : pySplit (maskNonWord (c :: cs)) = pySplit (maskNonWord cs) := by
        simp only [maskNonWord, List.map_cons, hmc]
        exact pySplit_cons_of_ws c _ hc
      rw [hrhs]
      cases b
      · rw [collapseWsAux_cons_ws_false c cs hc]
        simp only [maskNonWord, List.map_cons,
          maskChar_of_ws (show pyIsSpace ' ' = true by decide)]
        rw [pySplit_cons_of_ws ' ' _ (by decide)]
        exact ih true
      · rw [collapseWsAux_cons_ws_true c cs hc]
        exact ih true
    · have hc2 : pyIsSpace c = false := Bool.of_not_eq_true hc
      rw [collapseWsAux_cons_not_ws b c cs hc2]
      simp only [maskNonWord, List.map_cons]
      apply pySplit_cons_congr
      · exact ih false
      · exact hwHead_mask_collapseAux_false cs

theorem pySplit_mask_collapse (v : List Char) :
    pySplit (maskNonWord (collapseWs v)) = pySplit (maskNonWord v) :=
  pySplit_mask_collapseAux v false

theorem pySplit_mask_dropWhile (s : List Char) :
    pySplit (maskNonWord (s.dropWhile pyIsSpace)) = pySplit (maskNonWord s) := by
  induction s with
  | nil => rfl
  | cons c cs ih =>
    by_cases hc : pyIsSpace c = true
    · rw [List.dropWhile_cons_of_pos hc, ih]
      simp only [maskNonWord, List.map_cons, maskChar_of_ws hc]
      rw [pySplit_cons_of_ws c _ hc]
    · rw [List.dropWhile_cons_of_neg (by simp [hc])]

theorem splitRuns_append_ws (x : List Char) (c : Char) (hc : pyIsSpace c = true) :
    splitRuns (x ++ [c]) = splitRuns x ++ [[]] := by
  induction x with
  | nil =>
    simp only [List.nil_append, splitRuns, List.foldr_cons, List.foldr_nil]
    simp [splitStep, hc]
  | cons d x' ih =>
    simp only [List.cons_append, splitRuns, List.foldr_cons] at *
    rw [ih]
    by_cases hd : pyIsSpace d = true
    · simp [splitStep, hd]
    · match h : List.foldr splitStep [[]] x' with
      | [] => exact absurd h (splitRuns_ne_nil x')
      | w :: ws => simp [splitStep, hd]

theorem pySplit_append_ws (x : List Char) (c : Char) (hc : pyIsSpace c = true) :
    pySplit (x ++ [c]) = pySplit x := by
  simp only [pySplit, splitRuns_append_ws x c hc, List.filter_append]
  simp

theorem pySplit_mask_append_ws (v t : List Char) (ht : ∀ c ∈ t, pyIsSpace c = true) :
    pySplit (maskNonWord (v ++ t)) = pySplit (maskNonWord v) := by
  induction t generalizing v with
  | nil => rw [List.append_nil]
  | cons c t' ih =>
    have hc : pyIsSpace c = true := ht c (List.mem_cons_self c t')
    have step : pySplit (maskNonWord (v ++ [c])) = pySplit (maskNonWord v) := by
      simp only [maskNonWord, List.map_append, List.map_cons, List.map_nil,
        maskChar_of_ws hc]
      exact pySplit_append_ws _ c hc
    calc pySplit (maskNonWord (v ++ c :: t'))
        = pySplit (maskNonWord ((v ++ [c]) ++ t')) := by
          rw [List.append_assoc, List.singleton_append]
      _ = pySplit (maskNonWord (v ++ [c])) :=
          ih (v ++ [c]) (fun d hd => ht d (List.mem_cons_of_mem c hd))
      _ = pySplit (maskNonWord v) := step

theorem pySplit_mask_strip (s : List Char) :
    pySplit (maskNonWord (pyStrip s)) = pySplit (maskNonWord s) := by
  unfold pyStrip
  set u := s.dropWhile pyIsSpace with hu
  have hdecomp : u = ((u.reverse.dropWhile pyIsSpace).reverse) ++
      ((u.reverse.takeWhile pyIsSpace).reverse) := by
    have h1 : u.reverse.takeWhile pyIsSpace ++ u.reverse.dropWhile pyIsSpace = u.reverse :=
      List.takeWhile_append_dropWhile pyIsSpace u.reverse
    calc u = u.reverse.reverse := (List.reverse_reverse u).symm
      _ = (u.reverse.takeWhile pyIsSpace ++ u.reverse.dropWhile pyIsSpace).reverse := by
          rw [h1]
      _ = ((u.reverse.dropWhile pyIsSpace).reverse) ++
          ((u.reverse.takeWhile pyIsSpace).reverse) := List.reverse_append _ _
  have hws : ∀ c ∈ (u.reverse.takeWhile pyIsSpace).reverse, pyIsSpace c = true := by
    intro c hcmem
    exact List.mem_takeWhile_imp (List.mem_reverse.mp hcmem)
  calc pySplit (maskNonWord (u.reverse.dropWhile pyIsSpace).reverse)
      = pySplit (maskNonWord ((u.reverse.dropWhile pyIsSpace).reverse ++
          (u.reverse.takeWhile pyIsSpace).reverse)) :=
        (pySplit_mask_append_ws _ _ hws).symm
    _ = pySplit (maskNonWord u) := by rw [← hdecomp]
    _ = pySplit (maskNonWord s) := pySplit_mask_dropWhile s

theorem mask_map_toLower (s : List Char) :
    maskNonWord (s.map Char.toLower) = (maskNonWord s).map Char.toLower := by
  simp only [maskNonWord, List.map_map]
  exact List.map_congr_left fun c _ => maskChar_toLower c

theorem splitRuns_map_preserving (f : Char → Char)
    (hf : ∀ c, pyIsSpace (f c) = pyIsSpace c) (s : List Char) :
    splitRuns (s.map f) = (splitRuns s).map (List.map f) := by
  induction s with
  | nil => rfl
  | cons c cs ih =>
    simp only [List.map_cons, splitRuns, List.foldr_cons] at *
    rw [ih]
    by_cases hc : pyIsSpace c = true
    · simp [splitStep, hf c, hc]
    · have hc2 : pyIsSpace c = false := Bool.of_not_eq_true hc
      match h : List.foldr splitStep [[]] cs with
      | [] => exact absurd h (splitRuns_ne_nil cs)
      | w :: ws => simp [splitStep, hf c, hc2]

theorem pySplit_map_preserving (f : Char → Char)
    (hf : ∀ c, pyIsSpace (f c) = pyIsSpace c) (s : List Char) :
    pySplit (s.map f) = (pySplit s).map (List.map f) := by
  simp only [pySplit, splitRuns_map_preserving f hf s]
  rw [List.filter_map]
  congr 1
  apply List.filter_congr
  intro w _
  cases w <;> simp

theorem mem_splitRuns_subset {t : List Char} {s : List Char} {c : Char}
    (ht : t ∈ splitRuns s) (hc : c ∈ t) : c ∈ s := by
  induction s generalizing t with
  | nil =>
    simp only [splitRuns, List.foldr_nil, List.mem_singleton] at ht
    subst ht
    simp at hc
  | cons d cs ih =>
    simp only [splitRuns, List.foldr_cons] at ht
    unfold splitStep at ht
    split at ht
    · rcases List.mem_cons.mp ht with h1 | h1
      · subst h1
        simp at hc
      · exact List.mem_cons_of_mem d (ih h1 hc)
    · split at ht
      next heq =>
        exact absurd heq (splitRuns_ne_nil cs)
      next w ws heq =>
        rcases List.mem_cons.mp ht with h1 | h1
        · subst h1
          rcases List.mem_cons.mp hc with h2 | h2
          · exact h2 ▸ List.mem_cons_self d cs
          · have hw : w ∈ splitRuns cs := by
              rw [show splitRuns cs = w :: ws from heq]
              exact List.mem_cons_self w ws
            exact List.mem_cons_of_mem d (ih hw h2)
        · have hw : t ∈ splitRuns cs := by
            rw [show splitRuns cs = w :: ws from heq]
            exact List.mem_cons_of_mem w h1
          exact List.mem_cons_of_mem d (ih hw hc)

theorem mem_pySplit_subset {t : List Char} {s : List Char} {c : Char}
    (ht : t ∈ pySplit s) (hc : c ∈ t) : c ∈ s :=
  mem_splitRuns_subset (List.mem_of_mem_filter ht) hc

theorem mem_pyStrip {c : Char} {s : List Char} (h : c ∈ pyStrip s) : c ∈ s := by
  unfold pyStrip at h
  rw [List.mem_reverse] at h
  have h2 := (List.dropWhile_sublist pyIsSpace).subset h
  rw [List.mem_reverse] at h2
  exact (List.dropWhile_sublist pyIsSpace).subset h2

theorem mem_collapseWsAux {c : Char} {v : List Char} :
    ∀ b, c ∈ collapseWsAux b v → c = ' ' ∨ c ∈ v := by
  induction v with
  | nil => intro b h; simp [collapseWsAux] at h
  | cons d ds ih =>
    intro b h
    by_cases hd : pyIsSpace d = true
    · cases b
      · rw [collapseWsAux_cons_ws_false d ds hd] at h
        rcases List.mem_cons.mp h with h1 | h1
        · exact Or.inl h1
        · rcases ih true h1 with h2 | h2
          · exact Or.inl h2
          · exact Or.inr (List.mem_cons_of_mem d h2)
      · rw [collapseWsAux_cons_ws_true d ds hd] at h
        rcases ih true h with h2 | h2
        · exact Or.inl h2
        · exact Or.inr (List.mem_cons_of_mem d h2)
    · rw [collapseWsAux_cons_not_ws b d ds (Bool.of_not_eq_true hd)] at h
      rcases List.mem_cons.mp h with h1 | h1
      · exact Or.inr (h1 ▸ List.mem_cons_self d ds)
      · rcases ih false h1 with h2 | h2
        · exact Or.inl h2
        · exact Or.inr (List.mem_cons_of_mem d h2)

theorem tokenize_normalize_eq (s : List Char) (h : ∀ c ∈ s, c.toNat ≠ 0x130) :
    jeffa_tokenize (jeffa_normalize_keyword s) = jeffa_tokenize s := by
  have hstrip : ∀ c ∈ pyStrip s, c.toNat ≠ 0x130 := fun c hc => h c (mem_pyStrip hc)
  simp only [jeffa_tokenize, jeffa_normalize_keyword, pyNFKC]
  rw [pySplit_mask_strip (collapseWs (pyLower (pyStrip s)))]
  rw [pySplit_mask_collapse (pyLower (pyStrip s))]
  rw [pyLower_eq_map_toLower hstrip]
  rw [mask_map_toLower (pyStrip s)]
  rw [pySplit_map_preserving Char.toLower pyIsSpace_toLower (maskNonWord (pyStrip s))]
  rw [List.map_map]
  have htok : ∀ t ∈ pySplit (maskNonWord (pyStrip s)),
      (pyLower ∘ List.map Char.toLower) t = pyLower t := by
    intro t htmem
    have htfree : ∀ c ∈ t, c.toNat ≠ 0x130 := by
      intro c hct
      have hcm : c ∈ maskNonWord (pyStrip s) := mem_pySplit_subset htmem hct
      rcases List.mem_map.mp hcm with ⟨d, hd, rfl⟩
      have hdfree := hstrip d hd
      unfold maskChar
      split
      · exact hdfree
      · decide
    have hmapfree : ∀ c ∈ t.map Char.toLower, c.toNat ≠ 0x130 := by
      intro c hcm
      rcases List.mem_map.mp hcm with ⟨d, hd, rfl⟩
      exact toNat_toLower_ne_iDot (htfree d hd)
    simp only [Function.comp]
    rw [pyLower_eq_map_toLower hmapfree, pyLower_eq_map_toLower htfree, List.map_map]
    exact List.map_congr_left fun c _ => toLower_toLower c
  rw [List.map_congr_left htok]
  rw [pySplit_mask_strip s]

theorem normalize_free_of_free (s : List Char) (h : ∀ c ∈ s, c.toNat ≠ 0x130) :
    ∀ c ∈ jeffa_normalize_keyword s, c.toNat ≠ 0x130 := by
  intro c hc
  have hstrip : ∀ c ∈ pyStrip s, c.toNat ≠ 0x130 := fun d hd => h d (mem_pyStrip hd)
  have hlower : ∀ c ∈ pyLower (pyStrip s), c.toNat ≠ 0x130 := by
    intro d hd
    rw [pyLower_eq_map_toLower hstrip] at hd
    rcases List.mem_map.mp hd with ⟨e, he, rfl⟩
    exact toNat_toLower_ne_iDot (hstrip e he)
  simp only [jeffa_normalize_keyword, pyNFKC] at hc
  have hc2 := mem_pyStrip hc
  rcases mem_collapseWsAux false hc2 with h1 | h1
  · subst h1
    decide
  · exact hlower c h1

/-- C4 amended: normalization invariance holds for every text and
keyword consisting solely of ASCII characters (code points below 128):
jeffa_keyword_density_bps is then unchanged when both inputs are first
passed through jeffa_normalize_keyword, so for ASCII inputs the result
is invariant under case and leading/trailing-whitespace changes.
Outside ASCII the equality fails, because jeffa_normalize_keyword
lowercases the whole raw string before the non-word mask while
jeffa_tokenize lowercases per token after it: at U+0130 (the
counterexample above, whose lowercasing exposes the non-word character
U+0307), at U+03A3 through the CPython Final_Sigma context rule (in
CPython 3.11, text ΑΣ.Β with keyword ΑΣ yields density 5000 directly
but 0 after normalizing, since the token-final sigma lowercases to
U+03C2 while the string-level sigma, followed by the case-ignorable
full stop and the cased Β, lowercases to U+03C3), and at compatibility
characters that NFKC maps to sigma, such as U+03F9 and U+1D6BA, which
reintroduce the sigma divergence even when U+0130 and U+03A3 are absent
from the input. On ASCII, CPython str.lower is the plain A..Z map, NFKC
is the identity, and the whitespace and word classes coincide with the
embedding, so the restriction makes both the statement true of the
program and the embedding exact on its domain. -/
theorem claim_C4_normalization_invariance (text keyword : List Char)
    (htext : ∀ c ∈ text, c.toNat < 128)
    (hkw : ∀ c ∈ keyword, c.toNat < 128) :
    jeffa_keyword_density_bps text keyword =
      jeffa_keyword_density_bps (jeffa_normalize_keyword text)
        (jeffa_normalize_keyword keyword) := by
  have htext2 : ∀ c ∈ text, c.toNat ≠ 0x130 := fun c hc => by
    have := htext c hc
    omega
  have hkw2 : ∀ c ∈ keyword, c.toNat ≠ 0x130 := fun c hc => by
    have := hkw c hc
    omega
  have hT := tokenize_normalize_eq text htext2
  have hK := tokenize_normalize_eq (jeffa_normalize_keyword keyword)
    (normalize_free_of_free keyword hkw2)
  simp only [jeffa_keyword_density_bps, hT, hK]

theorem claim_C4_normalization_invariance_witness :
    (∀ c ∈ ("  The QUICK fox.".toList), c.toNat < 128) ∧
    (∀ c ∈ (" Quick ".toList), c.toNat < 128) ∧
    jeffa_keyword_density_bps ("  The QUICK fox.".toList) (" Quick ".toList) =
      jeffa_keyword_density_bps (jeffa_normalize_keyword ("  The QUICK fox.".toList))
        (jeffa_normalize_keyword (" Quick ".toList)) :=
  ⟨by decide, by decide,
    claim_C4_normalization_invariance ("  The QUICK fox.".toList) (" Quick ".toList)
      (by decide) (by decide)⟩
